import Mathlib

/-!
Verification development for the `TreeCache` staging layer of a versioned
Jellyfish-Merkle-style tree (source: `src/tree_cache.rs`).

The Rust `TreeCache` is embedded shallowly:
  * `HashMap` / `HashSet` fields become association lists / lists kept in
    iteration order (a Rust `HashMap`'s iteration order is arbitrary and
    seed-dependent; a list records one such order, and theorems that hold
    for every list hold for every realizable iteration order),
  * the borrowed `reader: &'a R` becomes an explicit `TreeReader` argument
    of pure lookup functions,
  * machine integers (`u64` versions, `usize` counters) become `Nat`,
  * fallible operations return pairs / `Option` / `Except`
    (`delete_node`'s fatal `assert!` is `Option`-`none`),
  * the `SimpleHasher` type parameter becomes an explicit hash function
    `Node → Nat`.

External collaborator types (`NodeKey`, `Node`, `KeyHash`, `OwnedValue`,
`RootHash`, the storage batch types and the `TreeReader` trait) are not part
of the analysed source unit; they are modelled from the spec: a Version Key
is a pair of a version and a path, a Node is `Null`/`Leaf`/`Internal` with a
payload standing for its content, values are byte strings, and the reader
exposes pure node/value lookups.
-/

set_option autoImplicit false

abbrev Version := Nat

/-- Modelled from the spec: the pre-genesis sentinel version (`u64::MAX` in
`types.rs`, outside the analysed source unit). -/
def PRE_GENESIS_VERSION : Version := 2 ^ 64 - 1

/-- Modelled from the spec: a Version Key is `(version, path)`; only
construction from a version, equality and the `set_version` update matter
here.  The path is opaque, modelled as a list of nibbles. -/
structure NodeKey where
  version : Version
  nibble_path : List Nat
deriving DecidableEq, Repr

def NodeKey.new_empty_path (v : Version) : NodeKey := ⟨v, []⟩

def NodeKey.set_version (k : NodeKey) (v : Version) : NodeKey := ⟨v, k.nibble_path⟩

/-- Modelled from the spec: a node is `Null`, `Leaf` or `Internal`; the
`Nat` payload stands for the node's content (enough to distinguish two
different nodes and to say a copy is content-unchanged). -/
inductive Node where
  | Null : Node
  | Leaf : Nat → Node
  | Internal : Nat → Node
deriving DecidableEq, Repr

def Node.is_leaf : Node → Bool
  | .Leaf _ => true
  | _ => false

def Node.new_null : Node := .Null

abbrev KeyHash := Nat

abbrev OwnedValue := List Nat

abbrev RootHash := Nat

/-- Modelled from the spec: the external durable reader, as pure lookups
(its failure modes are outside the analysed unit). -/
structure TreeReader where
  get_node_option : NodeKey → Option Node
  get_value_option : Version → KeyHash → Option OwnedValue

/-- Association-list lookup, mirroring `HashMap::get` on a map whose
entries are listed in iteration order. -/
def alookup {α β : Type} [DecidableEq α] : List (α × β) → α → Option β
  | [], _ => none
  | (k', v) :: rest, k => if k' = k then some v else alookup rest k

/-- Association-list key removal, mirroring `HashMap::remove`. -/
def aerase {α β : Type} [DecidableEq α] : List (α × β) → α → List (α × β)
  | [], _ => []
  | (k', v) :: rest, k => if k' = k then aerase rest k else (k', v) :: aerase rest k

/-- `storage::StaleNodeIndex`: a stale marker tagging the superseded node's
key with the version at which it left the live tree. -/
structure StaleNodeIndex where
  stale_since_version : Version
  node_key : NodeKey
deriving DecidableEq, Repr

/-- `storage::NodeBatch`: accumulated node and value writes.  Entries are
kept newest-first so that `alookup` sees later `extend`s shadow earlier
ones, as `HashMap::extend` does. -/
structure NodeBatch where
  nodes : List (NodeKey × Node)
  values : List ((Version × KeyHash) × Option OwnedValue)
deriving DecidableEq, Repr

/-- `storage::NodeStats`: per-version counters. -/
structure NodeStats where
  new_nodes : Nat
  new_leaves : Nat
  stale_nodes : Nat
  stale_leaves : Nat
deriving DecidableEq, Repr

/-- `FrozenTreeCache`: the immutable accumulation across freezes. -/
structure FrozenTreeCache where
  node_cache : NodeBatch
  stale_node_index_cache : List StaleNodeIndex
  node_stats : List NodeStats
  root_hashes : List RootHash
deriving DecidableEq, Repr

def FrozenTreeCache.empty : FrozenTreeCache :=
  { node_cache := { nodes := [], values := [] }
    stale_node_index_cache := []
    node_stats := []
    root_hashes := [] }

/-- `TreeCache`'s mutable state (the reader reference is passed separately
to each operation that uses it). -/
structure TreeCache where
  root_node_key : NodeKey
  next_version : Version
  node_cache : List (NodeKey × Node)
  value_cache : List ((Version × KeyHash) × Option OwnedValue)
  num_new_leaves : Nat
  stale_node_index_cache : List NodeKey
  num_stale_leaves : Nat
  frozen_cache : FrozenTreeCache
deriving DecidableEq, Repr

/-- `NodeAlreadyExists`: the duplicate-key error, carrying the key and the
node that could not be inserted. -/
structure NodeAlreadyExists where
  key : NodeKey
  node : Node
deriving DecidableEq, Repr

/-- `FreezeError`. -/
inductive FreezeError where
  | GetNodeFailed : FreezeError
  | PutNodeFailed : NodeAlreadyExists → FreezeError
  | RootNodeMissing : FreezeError
deriving DecidableEq, Repr

/-- Error of the non-optional `get_node` (`TreeReaderExt::get_node` wraps a
missing node into an error naming the key). -/
inductive GetNodeError where
  | NodeMissing : NodeKey → GetNodeError
deriving DecidableEq, Repr

/-- `TreeCache::new`: establish the starting root pointer; at version 0,
consult the reader for a pre-genesis root, else stage a `Null` genesis
root. -/
def TreeCache.new (r : TreeReader) (next_version : Version) : TreeCache :=
  let base : TreeCache :=
    { root_node_key := NodeKey.new_empty_path 0
      next_version := next_version
      node_cache := []
      value_cache := []
      num_new_leaves := 0
      stale_node_index_cache := []
      num_stale_leaves := 0
      frozen_cache := FrozenTreeCache.empty }
  if next_version = 0 then
    let pre_genesis_root_key := NodeKey.new_empty_path PRE_GENESIS_VERSION
    match r.get_node_option pre_genesis_root_key with
    | some _ => { base with root_node_key := pre_genesis_root_key }
    | none =>
      let genesis_root_key := NodeKey.new_empty_path 0
      { base with
          root_node_key := genesis_root_key
          node_cache := [(genesis_root_key, Node.new_null)] }
  else
    { base with root_node_key := NodeKey.new_empty_path (next_version - 1) }

/-- `TreeCache::get_node_option`: Working Overlay, then Frozen Batch, then
the external reader. -/
def TreeCache.get_node_option (r : TreeReader) (c : TreeCache) (node_key : NodeKey) :
    Option Node :=
  match alookup c.node_cache node_key with
  | some n => some n
  | none =>
    match alookup c.frozen_cache.node_cache.nodes node_key with
    | some n => some n
    | none => r.get_node_option node_key

/-- `TreeCache::get_node`: as `get_node_option`, but "not found anywhere"
is an error. -/
def TreeCache.get_node (r : TreeReader) (c : TreeCache) (node_key : NodeKey) :
    Except GetNodeError Node :=
  match TreeCache.get_node_option r c node_key with
  | some n => .ok n
  | none => .error (.NodeMissing node_key)

def TreeCache.get_root_node_key (c : TreeCache) : NodeKey := c.root_node_key

def TreeCache.set_root_node_key (c : TreeCache) (root_node_key : NodeKey) : TreeCache :=
  { c with root_node_key := root_node_key }

/-- `TreeCache::put_node`: insert if vacant (bumping the new-leaf counter
for a leaf); on an occupied key return the error and leave the cache
unchanged.  The pair mirrors `&mut self` plus the `Result`. -/
def TreeCache.put_node (c : TreeCache) (node_key : NodeKey) (new_node : Node) :
    TreeCache × Option NodeAlreadyExists :=
  match alookup c.node_cache node_key with
  | none =>
    ({ c with
        node_cache := (node_key, new_node) :: c.node_cache
        num_new_leaves :=
          if new_node.is_leaf then c.num_new_leaves + 1 else c.num_new_leaves },
      none)
  | some _ => (c, some { key := node_key, node := new_node })

/-- `TreeCache::put_value`: unconditional upsert keyed by
`(version, key_hash)`. -/
def TreeCache.put_value (c : TreeCache) (version : Version) (key_hash : KeyHash)
    (value : Option OwnedValue) : TreeCache :=
  { c with value_cache := ((version, key_hash), value) :: aerase c.value_cache (version, key_hash) }

/-- `TreeCache::delete_node`: an overlay-resident key is removed outright
(decrementing the new-leaf counter for a leaf); otherwise the key is added
to the stale-index set — staling it twice trips the fatal `assert!`,
modelled as `none`. -/
def TreeCache.delete_node (c : TreeCache) (old_node_key : NodeKey) (is_leaf : Bool) :
    Option TreeCache :=
  match alookup c.node_cache old_node_key with
  | some _ =>
    some { c with
        node_cache := aerase c.node_cache old_node_key
        num_new_leaves := if is_leaf then c.num_new_leaves - 1 else c.num_new_leaves }
  | none =>
    if old_node_key ∈ c.stale_node_index_cache then
      none
    else
      some { c with
          stale_node_index_cache := old_node_key :: c.stale_node_index_cache
          num_stale_leaves :=
            if is_leaf then c.num_stale_leaves + 1 else c.num_stale_leaves }

/-- The scan loop of `TreeReader::get_value_option` for `TreeCache`: walk
the staged value entries in iteration order and return the first entry for
this key-hash whose version does not exceed `max_version`. -/
def scanValues (entries : List ((Version × KeyHash) × Option OwnedValue))
    (max_version : Version) (key_hash : KeyHash) : Option (Option OwnedValue) :=
  match entries with
  | [] => none
  | ((version, hash), value) :: rest =>
    if hash = key_hash ∧ version ≤ max_version then some value
    else scanValues rest max_version key_hash

/-- `<TreeCache as TreeReader>::get_value_option`: serve the first staged
match in iteration order, else delegate to the external reader. -/
def TreeCache.get_value_option (r : TreeReader) (c : TreeCache) (max_version : Version)
    (key_hash : KeyHash) : Option OwnedValue :=
  match scanValues c.value_cache max_version key_hash with
  | some value => value
  | none => r.get_value_option max_version key_hash

/-- The drain-and-reset tail of `TreeCache::freeze`: record this version's
statistics, fold the Working Overlay into the Frozen Batch (tagging stale
markers with the pre-increment `next_version`), zero the leaf counters and
advance the version. -/
def freezeFinish (c : TreeCache) : TreeCache :=
  { root_node_key := c.root_node_key
    next_version := c.next_version + 1
    node_cache := []
    value_cache := []
    num_new_leaves := 0
    stale_node_index_cache := []
    num_stale_leaves := 0
    frozen_cache :=
      { node_cache :=
          { nodes := c.node_cache ++ c.frozen_cache.node_cache.nodes
            values := c.value_cache ++ c.frozen_cache.node_cache.values }
        stale_node_index_cache :=
          c.frozen_cache.stale_node_index_cache ++
            c.stale_node_index_cache.map
              (fun node_key =>
                { stale_since_version := c.next_version, node_key := node_key })
        node_stats :=
          c.frozen_cache.node_stats ++
            [{ new_nodes := c.node_cache.length
               new_leaves := c.num_new_leaves
               stale_nodes := c.stale_node_index_cache.length
               stale_leaves := c.num_stale_leaves }]
        root_hashes := c.frozen_cache.root_hashes } }

/-- Append the resolved root node's hash to the frozen root-hash list
(step 2 of `freeze`). -/
def pushRootHash (H : Node → Nat) (c : TreeCache) (root_node : Node) : TreeCache :=
  { c with
      frozen_cache :=
        { c.frozen_cache with
            root_hashes := c.frozen_cache.root_hashes ++ [H root_node] } }

/-- `TreeCache::freeze` after the root has been resolved: push the root
hash, run the no-op guard (re-materialize the previous root under the new
version's key when nothing was staged), then drain. -/
def freezeAfterResolve (H : Node → Nat) (r : TreeReader) (c0 : TreeCache)
    (root_node : Node) : Except FreezeError TreeCache :=
  let c := pushRootHash H c0 root_node
  if 0 < c.next_version ∧ c.node_cache = [] ∧ c.stale_node_index_cache = [] then
    match TreeCache.get_node_option r c c.root_node_key with
    | none => .error .RootNodeMissing
    | some root_node2 =>
      match TreeCache.put_node c (c.root_node_key.set_version c.next_version) root_node2 with
      | (c2, none) => .ok (freezeFinish c2)
      | (_, some e) => .error (.PutNodeFailed e)
  else .ok (freezeFinish c)

/-- `TreeCache::freeze`: resolve the root (staging a `Null` root when it is
absent), then hash, guard and drain. -/
def TreeCache.freeze (H : Node → Nat) (r : TreeReader) (c : TreeCache) :
    Except FreezeError TreeCache :=
  match TreeCache.get_node_option r c c.root_node_key with
  | some root_node => freezeAfterResolve H r c root_node
  | none =>
    match TreeCache.put_node c c.root_node_key Node.new_null with
    | (c1, none) => freezeAfterResolve H r c1 Node.Null
    | (_, some e) => .error (.PutNodeFailed e)

/-- `storage::TreeUpdateBatch`. -/
structure TreeUpdateBatch where
  node_batch : NodeBatch
  stale_node_index_batch : List StaleNodeIndex
  node_stats : List NodeStats
deriving DecidableEq, Repr

/-- `From<TreeCache> for (Vec<RootHash>, TreeUpdateBatch)`: Export. -/
def toExport (c : TreeCache) : List RootHash × TreeUpdateBatch :=
  (c.frozen_cache.root_hashes,
    { node_batch := c.frozen_cache.node_cache
      stale_node_index_batch := c.frozen_cache.stale_node_index_cache
      node_stats := c.frozen_cache.node_stats })

/-- One driver-visible operation on the cache, for trace-level theorems. -/
inductive Op where
  | put : NodeKey → Node → Op
  | del : NodeKey → Bool → Op
  | putVal : Version → KeyHash → Option OwnedValue → Op
  | setRoot : NodeKey → Op
  | doFreeze : Op
deriving DecidableEq, Repr

/-- Apply one operation the way a Rust driver would: a failed `put_node`
returns its error and leaves the cache unchanged (the trace continues), a
double-stale `delete_node` panics (`none`), a failed `freeze` aborts
(`none`). -/
def applyOp (H : Node → Nat) (r : TreeReader) (c : TreeCache) : Op → Option TreeCache
  | .put k n => some (TreeCache.put_node c k n).1
  | .del k is_leaf => TreeCache.delete_node c k is_leaf
  | .putVal v h val => some (TreeCache.put_value c v h val)
  | .setRoot k => some (TreeCache.set_root_node_key c k)
  | .doFreeze => (TreeCache.freeze H r c).toOption

def applyOps (H : Node → Nat) (r : TreeReader) : List Op → TreeCache → Option TreeCache
  | [], c => some c
  | op :: rest, c =>
    match applyOp H r c op with
    | some c1 => applyOps H r rest c1
    | none => none

/-- Leaves currently staged in an overlay node-insert set. -/
def countLeaves (m : List (NodeKey × Node)) : Nat :=
  (m.filter (fun e => e.2.is_leaf)).length

/-- Key distinctness, the representation invariant of a `HashMap` listed in
iteration order. -/
def nodupKeys {α β : Type} (m : List (α × β)) : Prop :=
  (m.map Prod.fst).Nodup

/-- Operations acted on by `put_node` / `delete_node` only. -/
def isNodeOpB : Op → Bool
  | .put _ _ => true
  | .del _ _ => true
  | _ => false

/-- A trace is leaf-consistent when every `delete_node` call on a key that
is resident in the overlay passes an `is_leaf` flag matching the staged
node's actual leafness (the caller contract of `delete_node`). -/
def leafConsistentB (H : Node → Nat) (r : TreeReader) : TreeCache → List Op → Bool
  | _, [] => true
  | c, op :: rest =>
    (match op with
     | .del k flag =>
       match alookup c.node_cache k with
       | some n => n.is_leaf == flag
       | none => true
     | _ => true)
    && (match applyOp H r c op with
        | some c1 => leafConsistentB H r c1 rest
        | none => true)

/-- The keys a trace stales with `is_leaf = true` (the stale markers whose
deleted node was reported as a leaf). -/
def staleLeafKeys (H : Node → Nat) (r : TreeReader) : TreeCache → List Op → List NodeKey
  | _, [] => []
  | c, op :: rest =>
    match applyOp H r c op with
    | none => []
    | some c1 =>
      (match op with
       | .del k true => if alookup c.node_cache k = none then [k] else []
       | _ => []) ++ staleLeafKeys H r c1 rest

/-- Number of freezes in a trace. -/
def countFreeze (ops : List Op) : Nat :=
  ops.countP (fun op => match op with | .doFreeze => true | _ => false)

/-- A reader holding nothing: the empty backing store. -/
def reader0 : TreeReader := ⟨fun _ => none, fun _ _ => none⟩

/-- A reader holding a pre-genesis root marker. -/
def readerPG : TreeReader :=
  ⟨fun k => if k = NodeKey.new_empty_path PRE_GENESIS_VERSION then some (Node.Internal 3) else none,
   fun _ _ => none⟩

/-- A reader whose value store answers every value query. -/
def readerVal : TreeReader := ⟨fun _ => none, fun _ _ => some [9]⟩

/-- A concrete injective stand-in hasher for instantiating `SimpleHasher`. -/
def natHasher : Node → Nat
  | .Null => 0
  | .Leaf d => 2 * d + 1
  | .Internal d => 2 * d + 2

def nkA : NodeKey := ⟨1, [3]⟩

def nkB : NodeKey := ⟨0, [7]⟩

/-- Cache with staged value entries for key-hash 5 at versions 3 and 7,
version 3 first in iteration order (one realizable `HashMap` order). -/
def c1cache : TreeCache :=
  TreeCache.put_value (TreeCache.put_value (TreeCache.new reader0 8) 7 5 (some [2])) 3 5 (some [1])

def c4base : TreeCache := (TreeCache.put_node (TreeCache.new reader0 1) nkA (Node.Leaf 5)).1

def c3cache : TreeCache := (TreeCache.put_node (TreeCache.new reader0 1) nkA (Node.Leaf 4)).1

def c6cache : TreeCache :=
  (TreeCache.delete_node (TreeCache.new reader0 1) nkA false).getD (TreeCache.new reader0 1)

def c6res : TreeCache := (TreeCache.freeze natHasher reader0 c6cache).toOption.getD c6cache

def c10cache : TreeCache := TreeCache.put_value (TreeCache.new readerVal 3) 2 5 none

def nkC : NodeKey := ⟨0, [1]⟩

def nkD : NodeKey := ⟨0, [2]⟩

/-- A trace with two freezes around a staged insert. -/
def c8ops : List Op := [Op.put nkA (Node.Leaf 5), Op.doFreeze, Op.doFreeze]

def c8res : TreeCache :=
  (applyOps natHasher reader0 c8ops (TreeCache.new reader0 0)).getD (TreeCache.new reader0 0)

/-- A trace whose `delete_node` reports a staged leaf as a non-leaf. -/
def c5ops : List Op := [Op.put nkA (Node.Leaf 5), Op.del nkA false]

def c5cex : TreeCache :=
  (applyOps natHasher reader0 c5ops (TreeCache.new reader0 1)).getD (TreeCache.new reader0 1)

/-- A leaf-consistent trace: stage two nodes, delete the staged leaf with
the correct flag, stale one absent key as a leaf and one as a non-leaf. -/
def c5okOps : List Op :=
  [Op.put nkA (Node.Leaf 5), Op.put nkB (Node.Internal 2),
   Op.del nkA true, Op.del nkC true, Op.del nkD false]

def c5res : TreeCache :=
  (applyOps natHasher reader0 c5okOps (TreeCache.new reader0 1)).getD (TreeCache.new reader0 1)

def c5frozen : TreeCache :=
  (TreeCache.freeze natHasher reader0 (TreeCache.new reader0 1)).toOption.getD
    (TreeCache.new reader0 1)

def c2start : TreeCache := TreeCache.new reader0 0

def c2mid : TreeCache :=
  (TreeCache.freeze natHasher reader0 c2start).toOption.getD c2start

theorem alookup_append {α β : Type} [DecidableEq α] (a b : List (α × β)) (k : α) :
    alookup (a ++ b) k = ((alookup a k).orElse fun _ => alookup b k) := by
  induction a with
  | nil => simp [alookup]
  | cons e rest ih =>
    obtain ⟨k', v⟩ := e
    by_cases h : k' = k <;> simp [alookup, h, ih]

theorem alookup_aerase_self {α β : Type} [DecidableEq α] (m : List (α × β)) (k : α) :
    alookup (aerase m k) k = none := by
  induction m with
  | nil => rfl
  | cons e rest ih =>
    obtain ⟨k', v⟩ := e
    by_cases h : k' = k <;> simp [aerase, h, alookup, ih]

theorem put_node_ok_shape (c : TreeCache) (k : NodeKey) (n : Node) (c2 : TreeCache)
    (h : TreeCache.put_node c k n = (c2, none)) :
    alookup c.node_cache k = none ∧
      c2 = { c with
        node_cache := (k, n) :: c.node_cache
        num_new_leaves := if n.is_leaf then c.num_new_leaves + 1 else c.num_new_leaves } := by
  unfold TreeCache.put_node at h
  split at h
  · rename_i hvac
    simp only [Prod.mk.injEq] at h
    exact ⟨hvac, h.1.symm⟩
  · simp at h

theorem freezeAfterResolve_ok_shape (H : Node → Nat) (r : TreeReader) (c0 : TreeCache)
    (rn : Node) (c' : TreeCache) (h : freezeAfterResolve H r c0 rn = .ok c') :
    ∃ nc nl,
      c' = freezeFinish
        { c0 with
            node_cache := nc
            num_new_leaves := nl
            frozen_cache :=
              { c0.frozen_cache with
                  root_hashes := c0.frozen_cache.root_hashes ++ [H rn] } } := by
  simp only [freezeAfterResolve, pushRootHash] at h
  split at h
  · split at h
    · exact Except.noConfusion h
    · split at h
      · rename_i c2 heq2
        obtain ⟨hvac, rfl⟩ := put_node_ok_shape _ _ _ _ heq2
        have hc : c' = _ := (Except.ok.inj h).symm
        exact ⟨_, _, hc⟩
      · exact Except.noConfusion h
  · exact ⟨c0.node_cache, c0.num_new_leaves, (Except.ok.inj h).symm⟩

theorem freeze_ok_shape (H : Node → Nat) (r : TreeReader) (c c' : TreeCache)
    (h : TreeCache.freeze H r c = .ok c') :
    ∃ nc nl rn,
      c' = freezeFinish
        { c with
            node_cache := nc
            num_new_leaves := nl
            frozen_cache :=
              { c.frozen_cache with
                  root_hashes := c.frozen_cache.root_hashes ++ [H rn] } } := by
  unfold TreeCache.freeze at h
  split at h
  · rename_i rn hres
    obtain ⟨nc, nl, hc⟩ := freezeAfterResolve_ok_shape H r c rn c' h
    exact ⟨nc, nl, rn, hc⟩
  · rename_i hres
    split at h
    · rename_i c1 heq1
      obtain ⟨hvac, rfl⟩ := put_node_ok_shape _ _ _ _ heq1
      obtain ⟨nc, nl, hc⟩ := freezeAfterResolve_ok_shape H r _ Node.Null c' h
      refine ⟨nc, nl, Node.Null, ?_⟩
      exact hc
    · exact Except.noConfusion h

theorem scanValues_eq_find (l : List ((Version × KeyHash) × Option OwnedValue))
    (maxv : Version) (kh : KeyHash) :
    scanValues l maxv kh =
      ((l.filter (fun e => decide (e.1.2 = kh))).find?
        (fun e => decide (e.1.1 ≤ maxv))).map Prod.snd := by
  induction l with
  | nil => rfl
  | cons e rest ih =>
    obtain ⟨⟨ver, hh⟩, val⟩ := e
    by_cases h1 : hh = kh
    · by_cases h2 : ver ≤ maxv
      · simp [scanValues, List.filter, List.find?, h1, h2]
      · simp [scanValues, List.filter, List.find?, h1, h2, ih]
    · simp [scanValues, List.filter, h1, ih]

/-- C4: after `put_node(k, n1)` succeeds, a second `put_node(k, n2)` with no
intervening deletion or freeze returns the duplicate-key error carrying `k`
and the rejected node `n2`, and leaves the cache unchanged — in particular
the node stored at `k` is still `n1` (so the new-leaf counter of the
returned cache is that of the unchanged cache). -/
theorem put_node_duplicate_error (c c1 : TreeCache) (k : NodeKey) (n1 n2 : Node)
    (h : TreeCache.put_node c k n1 = (c1, none)) :
    TreeCache.put_node c1 k n2 = (c1, some { key := k, node := n2 })
      ∧ alookup c1.node_cache k = some n1 := by
  obtain ⟨hvac, rfl⟩ := put_node_ok_shape _ _ _ _ h
  constructor
  · unfold TreeCache.put_node
    simp [alookup]
  · simp [alookup]

/-- Witness for C4 at a concrete cache: the first `put_node` of `Leaf 5`
under `nkA` succeeds, the second of `Leaf 6` is rejected with key and node,
and `Leaf 5` is still stored. -/
theorem put_node_duplicate_error_witness :
    TreeCache.put_node c4base nkA (Node.Leaf 6) = (c4base, some { key := nkA, node := Node.Leaf 6 })
      ∧ alookup c4base.node_cache nkA = some (Node.Leaf 5) :=
  put_node_duplicate_error (TreeCache.new reader0 1) c4base nkA (Node.Leaf 5) (Node.Leaf 6) rfl

/-- Resolution priority exactly as the spec words it: the staged node in
the Working Overlay if present, otherwise the Frozen Batch's node if
present, otherwise the external reader's result. -/
def resolve_spec (r : TreeReader) (c : TreeCache) (k : NodeKey) : Option Node :=
  match alookup c.node_cache k with
  | some n => some n
  | none =>
    match alookup c.frozen_cache.node_cache.nodes k with
    | some n => some n
    | none => r.get_node_option k

/-- C9: `get_node_option` resolves Working Overlay → Frozen Batch →
external reader; `get_node` returns the same node under the same priority
order and errors exactly when the key is found in none of the three. -/
theorem get_node_resolution_order (r : TreeReader) (c : TreeCache) (k : NodeKey) :
    TreeCache.get_node_option r c k = resolve_spec r c k
      ∧ (∀ n, TreeCache.get_node r c k = .ok n ↔ TreeCache.get_node_option r c k = some n)
      ∧ ((∃ e, TreeCache.get_node r c k = .error e) ↔
          (alookup c.node_cache k = none
            ∧ alookup c.frozen_cache.node_cache.nodes k = none
            ∧ r.get_node_option k = none)) := by
  refine ⟨rfl, ?_, ?_⟩
  · intro n
    unfold TreeCache.get_node
    cases hx : TreeCache.get_node_option r c k <;> simp
  · unfold TreeCache.get_node TreeCache.get_node_option
    cases h1 : alookup c.node_cache k <;>
      cases h2 : alookup c.frozen_cache.node_cache.nodes k <;>
        cases h3 : r.get_node_option k <;> simp

/-- Witness for C9: at the genesis cache the staged `Null` root is served
through `get_node`. -/
theorem get_node_resolution_order_witness :
    TreeCache.get_node reader0 (TreeCache.new reader0 0) (NodeKey.new_empty_path 0)
      = .ok Node.Null :=
  ((get_node_resolution_order reader0 (TreeCache.new reader0 0)
    (NodeKey.new_empty_path 0)).2.1 Node.Null).mpr rfl

/-- C10: a staged deletion tombstone shadows the external reader — when the
value overlay's only staged entry for key-hash `kh` is a tombstone put at
version `v`, every lookup with `v ≤ max_version` returns the empty result
for every possible external reader, so no value the reader holds for `kh`
is observable. -/
theorem tombstone_shadows_reader (r : TreeReader) (c : TreeCache) (v maxv : Version)
    (kh : KeyHash) (hle : v ≤ maxv)
    (honly : c.value_cache.filter (fun e => decide (e.1.2 = kh)) = [((v, kh), none)]) :
    TreeCache.get_value_option r c maxv kh = none := by
  unfold TreeCache.get_value_option
  rw [scanValues_eq_find, honly]
  simp [List.find?, hle]

/-- Witness for C10: the tombstone staged at version 2 for key-hash 5 hides
the value `[9]` that `readerVal` holds for every key. -/
theorem tombstone_shadows_reader_witness :
    2 ≤ 3 ∧ TreeCache.get_value_option readerVal c10cache 3 5 = none :=
  ⟨by decide, tombstone_shadows_reader readerVal c10cache 2 3 5 (by decide) (by decide)⟩

/-- C1 (code bug): with staged value entries for key-hash 5 at versions 3
and 7, listed with version 3 first (a realizable `HashMap` iteration order,
which is seed-dependent and arbitrary), a lookup with `max_version = 7`
returns the version-3 entry `[1]` instead of the version-7 entry `[2]`
required by the claim: the scan in `get_value_option` returns the first
qualifying entry in iteration order, not the entry with the greatest
version not exceeding `max_version`.  The claim's `max_version = 5` case
and the fall-through-to-reader case do hold at this input. -/
theorem get_value_option_scan_order_bug :
    TreeCache.get_value_option reader0 c1cache 7 5 = some [1]
      ∧ some ([1] : OwnedValue) ≠ some ([2] : OwnedValue)
      ∧ TreeCache.get_value_option reader0 c1cache 5 5 = some [1]
      ∧ TreeCache.get_value_option reader0 c1cache 2 5 = none := by
  refine ⟨by decide, by decide, by decide, by decide⟩

/-- C6: a successful freeze moves every key of the Working Overlay's
stale-index set into the Frozen Batch's stale-index storage as an entry
tagged `stale_since_version = next_version` (read before the increment),
and leaves the Working Overlay's stale-index set empty. -/
theorem freeze_drains_stale_index (H : Node → Nat) (r : TreeReader) (c c' : TreeCache)
    (h : TreeCache.freeze H r c = .ok c') :
    c'.stale_node_index_cache = []
      ∧ c'.frozen_cache.stale_node_index_cache =
          c.frozen_cache.stale_node_index_cache ++
            c.stale_node_index_cache.map
              (fun k => { stale_since_version := c.next_version, node_key := k })
      ∧ ∀ k ∈ c.stale_node_index_cache,
          ({ stale_since_version := c.next_version, node_key := k } : StaleNodeIndex)
            ∈ c'.frozen_cache.stale_node_index_cache := by
  obtain ⟨nc, nl, rn, rfl⟩ := freeze_ok_shape H r c c' h
  refine ⟨rfl, rfl, ?_⟩
  intro k hk
  simp only [freezeFinish, List.mem_append, List.mem_map]
  exact Or.inr ⟨k, hk, rfl⟩

/-- Witness for C6: freezing a cache holding one stale marker `nkA` at
`next_version = 1` produces the frozen entry tagged with version 1 and
empties the working stale set. -/
theorem freeze_drains_stale_index_witness :
    c6res.stale_node_index_cache = []
      ∧ c6res.frozen_cache.stale_node_index_cache =
          c6cache.frozen_cache.stale_node_index_cache ++
            c6cache.stale_node_index_cache.map
              (fun k => { stale_since_version := c6cache.next_version, node_key := k })
      ∧ ∀ k ∈ c6cache.stale_node_index_cache,
          ({ stale_since_version := c6cache.next_version, node_key := k } : StaleNodeIndex)
            ∈ c6res.frozen_cache.stale_node_index_cache :=
  freeze_drains_stale_index natHasher reader0 c6cache c6res rfl

/-- C3: deleting a key resident in the Working Overlay removes it and adds
no stale-index entry for it — in particular an immediately following freeze
emits a stale entry with that key only if it was already staled before; and
deleting a key absent from the overlay and (precondition) not already
staled adds exactly one entry for it to the stale-index set, leaving the
overlay untouched. -/
theorem delete_node_stale_semantics (c : TreeCache) (k : NodeKey) (flag : Bool) :
    (∀ n, alookup c.node_cache k = some n →
      ∃ c', TreeCache.delete_node c k flag = some c'
        ∧ alookup c'.node_cache k = none
        ∧ c'.stale_node_index_cache = c.stale_node_index_cache
        ∧ ∀ (H : Node → Nat) (r : TreeReader) (c'' : TreeCache),
            TreeCache.freeze H r c' = .ok c'' →
            ∀ s ∈ c''.frozen_cache.stale_node_index_cache, s.node_key = k →
              s ∈ c.frozen_cache.stale_node_index_cache ∨ k ∈ c.stale_node_index_cache)
      ∧ (alookup c.node_cache k = none → k ∉ c.stale_node_index_cache →
        ∃ c', TreeCache.delete_node c k flag = some c'
          ∧ c'.node_cache = c.node_cache
          ∧ c'.stale_node_index_cache.count k = 1
          ∧ c'.stale_node_index_cache = k :: c.stale_node_index_cache) := by
  constructor
  · intro n hn
    refine ⟨{ c with
        node_cache := aerase c.node_cache k
        num_new_leaves := if flag then c.num_new_leaves - 1 else c.num_new_leaves },
      ?_, ?_, rfl, ?_⟩
    · unfold TreeCache.delete_node
      rw [hn]
    · exact alookup_aerase_self c.node_cache k
    · intro H r c'' hfr s hs hsk
      obtain ⟨nc, nl, rn, rfl⟩ := freeze_ok_shape H r _ c'' hfr
      simp only [freezeFinish, List.mem_append, List.mem_map] at hs
      rcases hs with hs | ⟨k2, hk2, rfl⟩
      · exact Or.inl hs
      · exact Or.inr (hsk ▸ hk2)
  · intro hnone hnst
    refine ⟨{ c with
        stale_node_index_cache := k :: c.stale_node_index_cache
        num_stale_leaves := if flag then c.num_stale_leaves + 1 else c.num_stale_leaves },
      ?_, rfl, ?_, rfl⟩
    · unfold TreeCache.delete_node
      rw [hnone, if_neg hnst]
    · simp [List.count_cons_self, List.count_eq_zero_of_not_mem hnst]

/-- Witness for C3 at a concrete cache: deleting `nkB`, which is not in the
overlay and not yet staled, creates exactly one stale entry for it. -/
theorem delete_node_stale_semantics_witness :
    ∃ c', TreeCache.delete_node c3cache nkB true = some c'
      ∧ c'.node_cache = c3cache.node_cache
      ∧ c'.stale_node_index_cache.count nkB = 1
      ∧ c'.stale_node_index_cache = nkB :: c3cache.stale_node_index_cache :=
  (delete_node_stale_semantics c3cache nkB true).2 (by decide) (by decide)

/-- C7: a fresh cache at version 0 over a store with no pre-genesis marker
stages a `Null` node at version 0's root key, points the root at it, and
`get_node` on the root pointer yields that `Null` node for every possible
external reader (no read for that key can reach the reader); with a
pre-genesis marker present, the root pointer is the pre-genesis key and
nothing is staged. -/
theorem new_genesis_bootstrap (r : TreeReader) :
    (r.get_node_option (NodeKey.new_empty_path PRE_GENESIS_VERSION) = none →
      (TreeCache.new r 0).root_node_key = NodeKey.new_empty_path 0
        ∧ alookup (TreeCache.new r 0).node_cache (NodeKey.new_empty_path 0) = some Node.Null
        ∧ ∀ r2 : TreeReader,
            TreeCache.get_node r2 (TreeCache.new r 0) (NodeKey.new_empty_path 0)
              = .ok Node.Null)
      ∧ (∀ n, r.get_node_option (NodeKey.new_empty_path PRE_GENESIS_VERSION) = some n →
        (TreeCache.new r 0).root_node_key = NodeKey.new_empty_path PRE_GENESIS_VERSION
          ∧ (TreeCache.new r 0).node_cache = []) := by
  constructor
  · intro habs
    have hnew : TreeCache.new r 0 =
        { root_node_key := NodeKey.new_empty_path 0
          next_version := 0
          node_cache := [(NodeKey.new_empty_path 0, Node.new_null)]
          value_cache := []
          num_new_leaves := 0
          stale_node_index_cache := []
          num_stale_leaves := 0
          frozen_cache := FrozenTreeCache.empty } := by
      simp [TreeCache.new, habs]
    refine ⟨by rw [hnew], by rw [hnew]; simp [alookup, Node.new_null], ?_⟩
    intro r2
    rw [hnew]
    unfold TreeCache.get_node TreeCache.get_node_option
    simp [alookup, Node.new_null]
  · intro n hpre
    have hnew : TreeCache.new r 0 =
        { root_node_key := NodeKey.new_empty_path PRE_GENESIS_VERSION
          next_version := 0
          node_cache := []
          value_cache := []
          num_new_leaves := 0
          stale_node_index_cache := []
          num_stale_leaves := 0
          frozen_cache := FrozenTreeCache.empty } := by
      simp [TreeCache.new, hpre]
    exact ⟨by rw [hnew], by rw [hnew]⟩

/-- Witness for C7: the empty store bootstraps a `Null` genesis root; the
pre-genesis store keeps the pre-genesis root pointer and stages nothing. -/
theorem new_genesis_bootstrap_witness :
    ((TreeCache.new reader0 0).root_node_key = NodeKey.new_empty_path 0
        ∧ alookup (TreeCache.new reader0 0).node_cache (NodeKey.new_empty_path 0)
            = some Node.Null
        ∧ TreeCache.get_node readerVal (TreeCache.new reader0 0) (NodeKey.new_empty_path 0)
            = .ok Node.Null)
      ∧ ((TreeCache.new readerPG 0).root_node_key = NodeKey.new_empty_path PRE_GENESIS_VERSION
        ∧ (TreeCache.new readerPG 0).node_cache = []) :=
  ⟨⟨((new_genesis_bootstrap reader0).1 rfl).1,
    ((new_genesis_bootstrap reader0).1 rfl).2.1,
    ((new_genesis_bootstrap reader0).1 rfl).2.2 readerVal⟩,
   (new_genesis_bootstrap readerPG).2 (Node.Internal 3) (by decide)⟩

theorem put_node_frozen (c : TreeCache) (k : NodeKey) (n : Node) :
    ((TreeCache.put_node c k n).1).frozen_cache = c.frozen_cache := by
  unfold TreeCache.put_node
  split <;> rfl

theorem delete_node_frozen (c : TreeCache) (k : NodeKey) (flag : Bool) (c1 : TreeCache)
    (h : TreeCache.delete_node c k flag = some c1) :
    c1.frozen_cache = c.frozen_cache := by
  unfold TreeCache.delete_node at h
  split at h
  · obtain rfl := Option.some.inj h
    rfl
  · split at h
    · exact Option.noConfusion h
    · obtain rfl := Option.some.inj h
      rfl

theorem freeze_frozen_lengths (H : Node → Nat) (r : TreeReader) (c c' : TreeCache)
    (h : TreeCache.freeze H r c = .ok c') :
    c'.frozen_cache.root_hashes.length = c.frozen_cache.root_hashes.length + 1
      ∧ c'.frozen_cache.node_stats.length = c.frozen_cache.node_stats.length + 1 := by
  obtain ⟨nc, nl, rn, rfl⟩ := freeze_ok_shape H r c c' h
  constructor <;> simp [freezeFinish]

theorem applyOps_frozen_lengths (H : Node → Nat) (r : TreeReader) (ops : List Op)
    (c c' : TreeCache) (h : applyOps H r ops c = some c') :
    c'.frozen_cache.root_hashes.length = c.frozen_cache.root_hashes.length + countFreeze ops
      ∧ c'.frozen_cache.node_stats.length
          = c.frozen_cache.node_stats.length + countFreeze ops := by
  induction ops generalizing c with
  | nil =>
    obtain rfl := Option.some.inj h
    simp [countFreeze]
  | cons op rest ih =>
    simp only [applyOps] at h
    cases hop : applyOp H r c op with
    | none => rw [hop] at h; exact Option.noConfusion h
    | some c1 =>
      rw [hop] at h
      obtain ⟨ih1, ih2⟩ := ih c1 h
      cases op with
      | put k n =>
        have hfz : c1.frozen_cache = c.frozen_cache := by
          have := put_node_frozen c k n
          simpa [applyOp] using (Option.some.inj (by simpa [applyOp] using hop)).symm ▸ this
        rw [ih1, ih2, hfz]
        simp [countFreeze, List.countP_cons]
      | del k flag =>
        have hdel : TreeCache.delete_node c k flag = some c1 := by simpa [applyOp] using hop
        have hfz := delete_node_frozen c k flag c1 hdel
        rw [ih1, ih2, hfz]
        simp [countFreeze, List.countP_cons]
      | putVal v kh val =>
        have hfz : c1.frozen_cache = c.frozen_cache := by
          have hc1 : TreeCache.put_value c v kh val = c1 := by simpa [applyOp] using hop
          rw [← hc1]
          rfl
        rw [ih1, ih2, hfz]
        simp [countFreeze, List.countP_cons]
      | setRoot k =>
        have hfz : c1.frozen_cache = c.frozen_cache := by
          have hc1 : TreeCache.set_root_node_key c k = c1 := by simpa [applyOp] using hop
          rw [← hc1]
          rfl
        rw [ih1, ih2, hfz]
        simp [countFreeze, List.countP_cons]
      | doFreeze =>
        have hfr : TreeCache.freeze H r c = .ok c1 := by
          simp only [applyOp] at hop
          cases hx : TreeCache.freeze H r c with
          | ok cz => rw [hx] at hop; exact congrArg Except.ok (Option.some.inj hop)
          | error e => rw [hx] at hop; exact Option.noConfusion hop
        obtain ⟨hl1, hl2⟩ := freeze_frozen_lengths H r c c1 hfr
        rw [ih1, ih2, hl1, hl2]
        simp [countFreeze, List.countP_cons]
        omega

/-- C8: for any driver trace from a fresh cache in which every freeze
succeeded (`applyOps` aborts on a failed freeze), Export yields a root-hash
sequence and a per-version statistics list whose lengths both equal the
number of freezes performed, in freeze order. -/
theorem export_completeness (H : Node → Nat) (r : TreeReader) (v : Version)
    (ops : List Op) (c : TreeCache)
    (h : applyOps H r ops (TreeCache.new r v) = some c) :
    (toExport c).1.length = countFreeze ops
      ∧ (toExport c).2.node_stats.length = countFreeze ops := by
  have h0 : (TreeCache.new r v).frozen_cache = FrozenTreeCache.empty := by
    unfold TreeCache.new
    by_cases hv : v = 0 <;>
      cases hx : r.get_node_option (NodeKey.new_empty_path PRE_GENESIS_VERSION) <;>
        simp [hv, hx]
  obtain ⟨h1, h2⟩ := applyOps_frozen_lengths H r ops (TreeCache.new r v) c h
  rw [h0] at h1 h2
  constructor
  · simpa [toExport, FrozenTreeCache.empty] using h1
  · simpa [toExport, FrozenTreeCache.empty] using h2

/-- Witness for C8: a concrete trace with two successful freezes exports
exactly two root hashes and two statistics records. -/
theorem export_completeness_witness :
    (toExport c8res).1.length = countFreeze c8ops
      ∧ (toExport c8res).2.node_stats.length = countFreeze c8ops :=
  export_completeness natHasher reader0 0 c8ops c8res rfl

theorem alookup_none_not_mem {α β : Type} [DecidableEq α] (m : List (α × β)) (k : α)
    (h : alookup m k = none) : k ∉ m.map Prod.fst := by
  induction m with
  | nil => simp
  | cons e rest ih =>
    obtain ⟨k', v⟩ := e
    by_cases hk : k' = k
    · simp [alookup, hk] at h
    · simp only [alookup, if_neg hk] at h
      intro hmem
      rcases List.mem_cons.mp hmem with h1 | h2
      · exact hk h1.symm
      · exact ih h h2

theorem aerase_of_not_mem {α β : Type} [DecidableEq α] (m : List (α × β)) (k : α)
    (h : k ∉ m.map Prod.fst) : aerase m k = m := by
  induction m with
  | nil => rfl
  | cons e rest ih =>
    obtain ⟨k', v⟩ := e
    simp only [List.map_cons, List.mem_cons, not_or] at h
    rw [aerase, if_neg (fun he => h.1 he.symm), ih h.2]

theorem mem_keys_aerase {α β : Type} [DecidableEq α] (m : List (α × β)) (k x : α)
    (h : x ∈ (aerase m k).map Prod.fst) : x ∈ m.map Prod.fst := by
  induction m with
  | nil => simp [aerase] at h
  | cons e rest ih =>
    obtain ⟨k', v⟩ := e
    by_cases hk : k' = k
    · rw [aerase, if_pos hk] at h
      exact List.mem_cons_of_mem _ (ih h)
    · rw [aerase, if_neg hk] at h
      rcases List.mem_cons.mp h with h1 | h2
      · exact List.mem_cons.mpr (Or.inl h1)
      · exact List.mem_cons_of_mem _ (ih h2)

theorem nodupKeys_aerase {α β : Type} [DecidableEq α] (m : List (α × β)) (k : α)
    (h : nodupKeys m) : nodupKeys (aerase m k) := by
  induction m with
  | nil => exact h
  | cons e rest ih =>
    obtain ⟨k', v⟩ := e
    rw [nodupKeys, List.map_cons, List.nodup_cons] at h
    by_cases hk : k' = k
    · rw [aerase, if_pos hk]
      exact ih h.2
    · rw [aerase, if_neg hk]
      rw [nodupKeys, List.map_cons, List.nodup_cons]
      exact ⟨fun hm => h.1 (mem_keys_aerase rest k k' hm), ih h.2⟩

theorem nodupKeys_cons {α β : Type} [DecidableEq α] (m : List (α × β)) (k : α) (n : β)
    (h : nodupKeys m) (hvac : alookup m k = none) : nodupKeys ((k, n) :: m) := by
  rw [nodupKeys, List.map_cons, List.nodup_cons]
  exact ⟨alookup_none_not_mem m k hvac, h⟩

theorem countLeaves_cons (k : NodeKey) (n : Node) (m : List (NodeKey × Node)) :
    countLeaves ((k, n) :: m) =
      (if n.is_leaf then countLeaves m + 1 else countLeaves m) := by
  by_cases h : n.is_leaf <;> simp [countLeaves, List.filter_cons, h]

theorem countLeaves_aerase (m : List (NodeKey × Node)) (k : NodeKey) (n : Node)
    (hnd : nodupKeys m) (hl : alookup m k = some n) :
    countLeaves m = countLeaves (aerase m k) + (if n.is_leaf then 1 else 0) := by
  induction m with
  | nil => exact Option.noConfusion hl
  | cons e rest ih =>
    obtain ⟨k', v⟩ := e
    rw [nodupKeys, List.map_cons, List.nodup_cons] at hnd
    by_cases hk : k' = k
    · subst hk
      simp only [alookup, if_pos rfl] at hl
      obtain rfl := Option.some.inj hl
      rw [aerase, if_pos rfl, aerase_of_not_mem rest k' hnd.1, countLeaves_cons]
      by_cases hv : v.is_leaf <;> simp [hv]
    · simp only [alookup, if_neg hk] at hl
      rw [aerase, if_neg hk, countLeaves_cons, countLeaves_cons, ih hnd.2 hl]
      by_cases hv : v.is_leaf <;> by_cases hn : n.is_leaf <;> simp [hv, hn]

theorem leaf_accounting_aux (H : Node → Nat) (r : TreeReader) (ops : List Op) :
    ∀ c0 c : TreeCache,
      (∀ op ∈ ops, isNodeOpB op = true) →
      leafConsistentB H r c0 ops = true →
      applyOps H r ops c0 = some c →
      nodupKeys c0.node_cache →
      c0.num_new_leaves = countLeaves c0.node_cache →
      c.num_new_leaves = countLeaves c.node_cache
        ∧ c.num_stale_leaves = c0.num_stale_leaves + (staleLeafKeys H r c0 ops).length
        ∧ (∀ k ∈ staleLeafKeys H r c0 ops, k ∈ c.stale_node_index_cache)
        ∧ (∀ k ∈ c0.stale_node_index_cache, k ∈ c.stale_node_index_cache) := by
  induction ops with
  | nil =>
    intro c0 c _ _ happ _ hinv
    obtain rfl := Option.some.inj happ
    exact ⟨hinv, by simp [staleLeafKeys], by simp [staleLeafKeys], fun k hk => hk⟩
  | cons op rest ih =>
    intro c0 c hops hcons happ hnd hinv
    simp only [applyOps] at happ
    cases hop : applyOp H r c0 op with
    | none => rw [hop] at happ; exact Option.noConfusion happ
    | some c1 =>
      rw [hop] at happ
      have hopsrest : ∀ o ∈ rest, isNodeOpB o = true :=
        fun o ho => hops o (List.mem_cons_of_mem _ ho)
      cases op with
      | put k n =>
        simp only [leafConsistentB, hop, Bool.and_eq_true, Bool.true_and, true_and] at hcons
        have hc1 : (TreeCache.put_node c0 k n).1 = c1 :=
          Option.some.inj (by simpa [applyOp] using hop)
        cases hl : alookup c0.node_cache k with
        | none =>
          have hc1' : c1 = { c0 with
              node_cache := (k, n) :: c0.node_cache
              num_new_leaves :=
                if n.is_leaf then c0.num_new_leaves + 1 else c0.num_new_leaves } := by
            rw [← hc1]
            unfold TreeCache.put_node
            rw [hl]
          subst hc1'
          obtain ⟨g1, g2, g3, g4⟩ := ih _ c hopsrest hcons happ
            (by exact nodupKeys_cons _ k n hnd hl)
            (by
              show (if n.is_leaf then c0.num_new_leaves + 1 else c0.num_new_leaves)
                = countLeaves ((k, n) :: c0.node_cache)
              rw [countLeaves_cons, hinv])
          exact ⟨g1, by simpa [staleLeafKeys, hop] using g2,
            by simpa [staleLeafKeys, hop] using g3, g4⟩
        | some m =>
          have hc1' : c1 = c0 := by
            rw [← hc1]
            unfold TreeCache.put_node
            rw [hl]
          subst hc1'
          obtain ⟨g1, g2, g3, g4⟩ := ih _ c hopsrest hcons happ hnd hinv
          exact ⟨g1, by simpa [staleLeafKeys, hop] using g2,
            by simpa [staleLeafKeys, hop] using g3, g4⟩
      | del k flag =>
        simp only [leafConsistentB, hop, Bool.and_eq_true] at hcons
        obtain ⟨hhead, htail⟩ := hcons
        have hdel : TreeCache.delete_node c0 k flag = some c1 := by
          simpa [applyOp] using hop
        cases hl : alookup c0.node_cache k with
        | some m =>
          simp only [hl] at hhead
          have hflag : m.is_leaf = flag := by simpa using hhead
          have hc1' : c1 = { c0 with
              node_cache := aerase c0.node_cache k
              num_new_leaves :=
                if flag then c0.num_new_leaves - 1 else c0.num_new_leaves } := by
            unfold TreeCache.delete_node at hdel
            rw [hl] at hdel
            exact (Option.some.inj hdel).symm
          subst hc1'
          have hcnt : c0.num_new_leaves
              = countLeaves (aerase c0.node_cache k) + (if flag then 1 else 0) := by
            rw [hinv, countLeaves_aerase c0.node_cache k m hnd hl, hflag]
          obtain ⟨g1, g2, g3, g4⟩ := ih _ c hopsrest htail happ
            (by exact nodupKeys_aerase _ k hnd)
            (by
              show (if flag then c0.num_new_leaves - 1 else c0.num_new_leaves)
                = countLeaves (aerase c0.node_cache k)
              cases flag <;> simp at hcnt ⊢ <;> omega)
          refine ⟨g1, ?_, ?_, g4⟩
          · cases flag <;> simpa [staleLeafKeys, hop, hl] using g2
          · cases flag <;> simpa [staleLeafKeys, hop, hl] using g3
        | none =>
          by_cases hmem : k ∈ c0.stale_node_index_cache
          · exfalso
            unfold TreeCache.delete_node at hdel
            rw [hl, if_pos hmem] at hdel
            exact Option.noConfusion hdel
          · have hc1' : c1 = { c0 with
                stale_node_index_cache := k :: c0.stale_node_index_cache
                num_stale_leaves :=
                  if flag then c0.num_stale_leaves + 1 else c0.num_stale_leaves } := by
              unfold TreeCache.delete_node at hdel
              rw [hl, if_neg hmem] at hdel
              exact (Option.some.inj hdel).symm
            subst hc1'
            obtain ⟨g1, g2, g3, g4⟩ := ih _ c hopsrest htail happ (by exact hnd) (by exact hinv)
            refine ⟨g1, ?_, ?_, ?_⟩
            · cases flag
              · simpa [staleLeafKeys, hop, hl] using g2
              · simp only [staleLeafKeys, hop, hl] at g2 ⊢
                simp at g2 ⊢
                omega
            · cases flag
              · simpa [staleLeafKeys, hop, hl] using g3
              · intro k2 hk2
                simp only [staleLeafKeys, hop, hl] at hk2
                simp at hk2
                rcases hk2 with rfl | hk2
                · exact g4 k2 (List.mem_cons_self _ _)
                · exact g3 k2 hk2
            · intro k2 hk2
              exact g4 k2 (List.mem_cons_of_mem _ hk2)
      | putVal v kh val =>
        exact absurd (hops _ (List.mem_cons_self _ _)) (by simp [isNodeOpB])
      | setRoot k =>
        exact absurd (hops _ (List.mem_cons_self _ _)) (by simp [isNodeOpB])
      | doFreeze =>
        exact absurd (hops _ (List.mem_cons_self _ _)) (by simp [isNodeOpB])

theorem new_start_facts (r : TreeReader) (v : Version) :
    nodupKeys (TreeCache.new r v).node_cache
      ∧ (TreeCache.new r v).num_new_leaves = countLeaves (TreeCache.new r v).node_cache
      ∧ (TreeCache.new r v).num_stale_leaves = 0
      ∧ (TreeCache.new r v).stale_node_index_cache = [] := by
  unfold TreeCache.new
  by_cases hv : v = 0 <;>
    cases hx : r.get_node_option (NodeKey.new_empty_path PRE_GENESIS_VERSION) <;>
      simp [hv, hx, nodupKeys, countLeaves, Node.new_null, Node.is_leaf]

theorem freeze_start_facts (H : Node → Nat) (r : TreeReader) (cp c0 : TreeCache)
    (h : TreeCache.freeze H r cp = .ok c0) :
    nodupKeys c0.node_cache
      ∧ c0.num_new_leaves = countLeaves c0.node_cache
      ∧ c0.num_stale_leaves = 0
      ∧ c0.stale_node_index_cache = [] := by
  obtain ⟨nc, nl, rn, rfl⟩ := freeze_ok_shape H r cp c0 h
  exact ⟨by simp [freezeFinish, nodupKeys], by simp [freezeFinish, countLeaves], rfl, rfl⟩

/-- C5 (amended): over any sequence of `put_node` / `delete_node`
operations from a freshly constructed or freshly frozen cache IN WHICH
every `delete_node` of an overlay-resident key passes an `is_leaf` flag
equal to the staged node's leafness, `num_new_leaves` (a natural number,
hence non-negative) equals the number of leaf nodes currently staged in
the overlay's node-insert set, and `num_stale_leaves` equals the number of
staged stale markers whose deletion was flagged as a leaf (each such
marker being in the stale-index set); and both counters are zero
immediately after every successful freeze.  The flag-consistency
hypothesis is the amendment forced by `leaf_accounting_cex`. -/
theorem leaf_accounting (H : Node → Nat) (r : TreeReader) (ops : List Op)
    (c0 c : TreeCache) (v : Version) (cp : TreeCache)
    (hstart : c0 = TreeCache.new r v ∨ TreeCache.freeze H r cp = .ok c0)
    (hops : ∀ op ∈ ops, isNodeOpB op = true)
    (hcons : leafConsistentB H r c0 ops = true)
    (happ : applyOps H r ops c0 = some c) :
    (c.num_new_leaves = countLeaves c.node_cache
      ∧ c.num_stale_leaves = (staleLeafKeys H r c0 ops).length
      ∧ ∀ k ∈ staleLeafKeys H r c0 ops, k ∈ c.stale_node_index_cache)
    ∧ ∀ (H2 : Node → Nat) (r2 : TreeReader) (d d' : TreeCache),
        TreeCache.freeze H2 r2 d = .ok d' →
        d'.num_new_leaves = 0 ∧ d'.num_stale_leaves = 0 := by
  have hfacts : nodupKeys c0.node_cache
      ∧ c0.num_new_leaves = countLeaves c0.node_cache
      ∧ c0.num_stale_leaves = 0
      ∧ c0.stale_node_index_cache = [] := by
    rcases hstart with rfl | hfr
    · exact new_start_facts r v
    · exact freeze_start_facts H r cp c0 hfr
  obtain ⟨hnd, hinv, hnsl, hstale⟩ := hfacts
  obtain ⟨g1, g2, g3, g4⟩ := leaf_accounting_aux H r ops c0 c hops hcons happ hnd hinv
  refine ⟨⟨g1, by rw [g2, hnsl, Nat.zero_add], g3⟩, ?_⟩
  intro H2 r2 d d' hfr
  obtain ⟨nc2, nl2, rn2, rfl⟩ := freeze_ok_shape H2 r2 d d' hfr
  exact ⟨rfl, rfl⟩

/-- C5 counterexample: after the put/delete trace `c5ops` — stage `Leaf 5`
under `nkA`, then `delete_node nkA` with `is_leaf = false` — the cache has
`num_new_leaves = 1` while the overlay stages no leaf at all, so the claim
as stated (quantifying over every sequence of `put_node` / `delete_node`
calls) is false on the code: `delete_node` trusts its `is_leaf` argument
and skips the decrement. -/
theorem leaf_accounting_cex :
    (∀ op ∈ c5ops, isNodeOpB op = true)
      ∧ applyOps natHasher reader0 c5ops (TreeCache.new reader0 1) = some c5cex
      ∧ c5cex.num_new_leaves = 1
      ∧ countLeaves c5cex.node_cache = 0
      ∧ c5cex.num_new_leaves ≠ countLeaves c5cex.node_cache := by
  refine ⟨by decide, by rfl, by decide, by decide, by decide⟩

/-- Witness for C5 at a concrete leaf-consistent trace: two puts, one
consistent overlay delete, two stale deletes (one flagged leaf), then the
counter facts, plus the counter reset after a concrete freeze. -/
theorem leaf_accounting_witness :
    (c5res.num_new_leaves = countLeaves c5res.node_cache
      ∧ c5res.num_stale_leaves
          = (staleLeafKeys natHasher reader0 (TreeCache.new reader0 1) c5okOps).length
      ∧ ∀ k ∈ staleLeafKeys natHasher reader0 (TreeCache.new reader0 1) c5okOps,
          k ∈ c5res.stale_node_index_cache)
    ∧ c5frozen.num_new_leaves = 0 ∧ c5frozen.num_stale_leaves = 0 :=
  have h := leaf_accounting natHasher reader0 c5okOps (TreeCache.new reader0 1) c5res 1
    (TreeCache.new reader0 1) (Or.inl rfl) (by decide) (by decide) rfl
  ⟨h.1, h.2 natHasher reader0 (TreeCache.new reader0 1) c5frozen rfl⟩

theorem getLast?_append_singleton {α : Type} (l : List α) (a : α) :
    (l ++ [a]).getLast? = some a :=
  List.getLast?_concat l

theorem get_node_option_freezeFinish (r : TreeReader) (cX : TreeCache) (k : NodeKey) :
    TreeCache.get_node_option r (freezeFinish cX) k = TreeCache.get_node_option r cX k := by
  unfold TreeCache.get_node_option freezeFinish
  simp only [alookup, alookup_append]
  cases h1 : alookup cX.node_cache k <;>
    cases h2 : alookup cX.frozen_cache.node_cache.nodes k <;>
      simp [h1, h2, Option.orElse]

theorem get_node_option_cons (r : TreeReader) (c : TreeCache) (key k : NodeKey)
    (n : Node) (m : Nat) :
    TreeCache.get_node_option r
        { c with node_cache := (key, n) :: c.node_cache, num_new_leaves := m } k
      = if key = k then some n else TreeCache.get_node_option r c k := by
  unfold TreeCache.get_node_option
  by_cases hk : key = k <;> simp [alookup, hk]

theorem freezeAfterResolve_ok_resolves (H : Node → Nat) (r : TreeReader) (cA : TreeCache)
    (rn : Node) (c1 : TreeCache)
    (hres : TreeCache.get_node_option r cA cA.root_node_key = some rn)
    (h : freezeAfterResolve H r cA rn = .ok c1) :
    TreeCache.get_node_option r c1 c1.root_node_key = some rn
      ∧ c1.frozen_cache.root_hashes = cA.frozen_cache.root_hashes ++ [H rn]
      ∧ c1.root_node_key = cA.root_node_key
      ∧ c1.node_cache = []
      ∧ c1.stale_node_index_cache = []
      ∧ c1.next_version = cA.next_version + 1 := by
  simp only [freezeAfterResolve] at h
  split at h
  · split at h
    · exact Except.noConfusion h
    · rename_i rn2 hres2
      have hres2' : TreeCache.get_node_option r cA cA.root_node_key = some rn2 := hres2
      obtain rfl : rn2 = rn := Option.some.inj (hres2'.symm.trans hres)
      split at h
      · rename_i c2 heq2
        obtain rfl := Except.ok.inj h
        obtain ⟨hvac, rfl⟩ := put_node_ok_shape _ _ _ _ heq2
        refine ⟨?_, rfl, rfl, rfl, rfl, rfl⟩
        rw [get_node_option_freezeFinish, get_node_option_cons]
        split_ifs <;> first | rfl | exact hres
      · exact Except.noConfusion h
  · obtain rfl := Except.ok.inj h
    refine ⟨?_, rfl, rfl, rfl, rfl, rfl⟩
    rw [get_node_option_freezeFinish]
    exact hres

theorem freeze_ok_resolves (H : Node → Nat) (r : TreeReader) (c0 c1 : TreeCache)
    (h : TreeCache.freeze H r c0 = .ok c1) :
    ∃ n, TreeCache.get_node_option r c1 c1.root_node_key = some n
      ∧ c1.frozen_cache.root_hashes = c0.frozen_cache.root_hashes ++ [H n]
      ∧ c1.root_node_key = c0.root_node_key
      ∧ c1.node_cache = []
      ∧ c1.stale_node_index_cache = []
      ∧ c1.next_version = c0.next_version + 1 := by
  unfold TreeCache.freeze at h
  split at h
  · rename_i rn hres
    exact ⟨rn, freezeAfterResolve_ok_resolves H r c0 rn c1 hres h⟩
  · rename_i hres
    split at h
    · rename_i cN heqN
      obtain ⟨hvac, rfl⟩ := put_node_ok_shape _ _ _ _ heqN
      have hres2 : TreeCache.get_node_option r
          ({ c0 with
              node_cache := (c0.root_node_key, Node.new_null) :: c0.node_cache
              num_new_leaves :=
                if Node.new_null.is_leaf then c0.num_new_leaves + 1
                else c0.num_new_leaves })
          c0.root_node_key = some Node.Null := by
        rw [get_node_option_cons]
        simp [Node.new_null]
      have hfar := freezeAfterResolve_ok_resolves H r _ Node.Null c1 hres2 h
      exact ⟨Node.Null, hfar.1, hfar.2.1, hfar.2.2.1, hfar.2.2.2.1,
        hfar.2.2.2.2.1, hfar.2.2.2.2.2⟩
    · exact Except.noConfusion h

theorem freeze_noop_step (H : Node → Nat) (r : TreeReader) (c1 : TreeCache) (n : Node)
    (hnc : c1.node_cache = []) (hst : c1.stale_node_index_cache = [])
    (hnv : 0 < c1.next_version)
    (hres : TreeCache.get_node_option r c1 c1.root_node_key = some n) :
    TreeCache.freeze H r c1 = .ok (freezeFinish
      { pushRootHash H c1 n with
          node_cache := [(c1.root_node_key.set_version c1.next_version, n)]
          num_new_leaves :=
            if n.is_leaf then c1.num_new_leaves + 1 else c1.num_new_leaves }) := by
  have hres' : TreeCache.get_node_option r (pushRootHash H c1 n)
      (pushRootHash H c1 n).root_node_key = some n := hres
  have hput : TreeCache.put_node (pushRootHash H c1 n)
      ((pushRootHash H c1 n).root_node_key.set_version (pushRootHash H c1 n).next_version) n
      = ({ pushRootHash H c1 n with
            node_cache := [(c1.root_node_key.set_version c1.next_version, n)]
            num_new_leaves :=
              if n.is_leaf then c1.num_new_leaves + 1 else c1.num_new_leaves },
         none) := by
    unfold TreeCache.put_node
    have hz : alookup (pushRootHash H c1 n).node_cache
        ((pushRootHash H c1 n).root_node_key.set_version (pushRootHash H c1 n).next_version)
        = none := by
      have he : (pushRootHash H c1 n).node_cache = ([] : List (NodeKey × Node)) := hnc
      rw [he]
      rfl
    rw [hz]
    have he : (pushRootHash H c1 n).node_cache = ([] : List (NodeKey × Node)) := hnc
    simp only [he]
    rfl
  unfold TreeCache.freeze
  rw [hres]
  simp only [freezeAfterResolve]
  rw [if_pos (⟨hnv, hnc, hst⟩ :
    0 < (pushRootHash H c1 n).next_version
      ∧ (pushRootHash H c1 n).node_cache = []
      ∧ (pushRootHash H c1 n).stale_node_index_cache = [])]
  simp only [hres', hput]

/-- C2: a cache that has just been frozen (hence is at `next_version N > 0`
with empty node-insert and stale-index sets; its root resolves to some node
`n` whose hash is the last recorded root hash, for version N−1).  Freezing
it again succeeds, stages a copy of the node at the previous root pointer —
content unchanged — under the root key with its version set to N, and
appends a root hash for version N equal to the root hash recorded for
version N−1. -/
theorem freeze_noop_version_continuity (H : Node → Nat) (r : TreeReader)
    (c0 c1 : TreeCache) (h : TreeCache.freeze H r c0 = .ok c1) :
    0 < c1.next_version
      ∧ c1.node_cache = []
      ∧ c1.stale_node_index_cache = []
      ∧ ∃ n c2,
          TreeCache.get_node_option r c1 c1.root_node_key = some n
            ∧ c1.frozen_cache.root_hashes.getLast? = some (H n)
            ∧ TreeCache.freeze H r c1 = .ok c2
            ∧ alookup c2.frozen_cache.node_cache.nodes
                (c1.root_node_key.set_version c1.next_version) = some n
            ∧ c2.frozen_cache.root_hashes = c1.frozen_cache.root_hashes ++ [H n] := by
  obtain ⟨n, hres, hrh, hroot, hnc, hst, hnv⟩ := freeze_ok_resolves H r c0 c1 h
  have hnv' : 0 < c1.next_version := by rw [hnv]; exact Nat.succ_pos _
  have hfr := freeze_noop_step H r c1 n hnc hst hnv' hres
  refine ⟨hnv', hnc, hst, n, _, hres, ?_, hfr, ?_, ?_⟩
  · rw [hrh]
    exact getLast?_append_singleton _ _
  · simp [freezeFinish, alookup]
  · simp [freezeFinish, pushRootHash]

/-- Witness for C2: freezing the genesis cache once gives `c2mid`; the
theorem applied there exhibits the re-staged root copy and the repeated
root hash. -/
theorem freeze_noop_version_continuity_witness :
    0 < c2mid.next_version
      ∧ c2mid.node_cache = []
      ∧ c2mid.stale_node_index_cache = []
      ∧ ∃ n c2,
          TreeCache.get_node_option reader0 c2mid c2mid.root_node_key = some n
            ∧ c2mid.frozen_cache.root_hashes.getLast? = some (natHasher n)
            ∧ TreeCache.freeze natHasher reader0 c2mid = .ok c2
            ∧ alookup c2.frozen_cache.node_cache.nodes
                (c2mid.root_node_key.set_version c2mid.next_version) = some n
            ∧ c2.frozen_cache.root_hashes
                = c2mid.frozen_cache.root_hashes ++ [natHasher n] :=
  freeze_noop_version_continuity natHasher reader0 c2start c2mid rfl
